import Mathlib

/-
  Verification development for the tinygo-trie library (trie.go).

  The Go code is embedded shallowly:
  * Go map[string]*Node becomes an association list with unique keys
    maintained by construction (lookupA / upsertA / eraseA).
  * Go interface values (with nil meaning absent) become Option Val.
  * strings.Split is modelled by goSplit, including the empty-separator
    case (Go splits into UTF-8 runes) and the fact that splitting the
    empty string with an empty separator yields an empty list.
  * Insert, Retrieve and Delete walk the segment list recursively,
    mirroring the in-place loops of the source (including the partial
    mutation a failed Insert leaves behind, and bottom-up pruning of
    Delete).
  * Match and collectAll use the explicit stack of the source; the loops
    take a fuel argument so that they are structurally recursive.  An
    out-of-range access parts[i] (a runtime panic in Go) is modelled by
    the MRes.panicked result; exhausted fuel is MRes.out, and a fuel
    monotonicity lemma shows results stable once the loop finishes.
-/

set_option linter.unusedVariables false

namespace TinyTrie

/-- Trie node: children keyed by segment string plus an optional stored
value (Go: a nil interface value means absent). -/
inductive Node (Val : Type) where
  | mk (children : List (String × Node Val)) (value : Option Val)

def Node.children {Val : Type} : Node Val → List (String × Node Val)
  | .mk cs _ => cs

def Node.value {Val : Type} : Node Val → Option Val
  | .mk _ v => v

/-- The trie: root node plus configuration, as in the Go struct. -/
structure Trie (Val : Type) where
  root : Node Val
  singleWild : String
  multiWild : String
  separator : String
  isSWild : Bool
  isMWild : Bool

/-- Association-list lookup, modelling Go map access. -/
def lookupA {β : Type} : List (String × β) → String → Option β
  | [], _ => none
  | (k, v) :: rest, key => if k = key then some v else lookupA rest key

/-- Association-list insert-or-update, modelling Go map assignment. -/
def upsertA {β : Type} : List (String × β) → String → β → List (String × β)
  | [], key, v => [(key, v)]
  | (k, w) :: rest, key, v =>
    if k = key then (key, v) :: rest else (k, w) :: upsertA rest key v

/-- Association-list removal, modelling the Go delete builtin. -/
def eraseA {β : Type} : List (String × β) → String → List (String × β)
  | [], _ => []
  | (k, w) :: rest, key => if k = key then rest else (k, w) :: eraseA rest key

/-- Drop sep as a prefix of the character list, if it is one. -/
def dropPfx : List Char → List Char → Option (List Char)
  | [], l => some l
  | _ :: _, [] => none
  | p :: ps, c :: cs => if p = c then dropPfx ps cs else none

/-- Character-level splitting around a non-empty separator, with fuel so
that the recursion is structural; fuel equal to the length of the input
is always sufficient since each step consumes at least one character. -/
def splitCh (sep : List Char) : Nat → List Char → List Char → List (List Char)
  | _, acc, [] => [acc.reverse]
  | 0, acc, rest => [acc.reverse ++ rest]
  | f + 1, acc, c :: cs =>
    match dropPfx sep (c :: cs) with
    | some rest => acc.reverse :: splitCh sep f [] rest
    | none => splitCh sep f (c :: acc) cs

/-- Model of Go strings.Split: an empty separator splits into single
runes (so the empty string yields an empty list), a non-empty separator
splits around each occurrence (a missing or empty input yields one
element). -/
def goSplit (s sep : String) : List String :=
  if sep = "" then s.data.map (fun c => String.mk [c])
  else (splitCh sep.data s.data.length [] s.data).map String.mk

/-- Construction options, as in the Go functional-options pattern. -/
inductive TOption where
  | withSingleWild (w : String)
  | withMultiWild (w : String)
  | withSeparator (s : String)

def applyOpt {Val : Type} (t : Trie Val) : TOption → Trie Val
  | .withSingleWild w => { t with singleWild := w, isSWild := true }
  | .withMultiWild w => { t with multiWild := w, isMWild := true }
  | .withSeparator s => { t with separator := s }

/-- New: root starts empty, separator defaults to the empty string, both
wildcards default to disabled (Go zero values). -/
def New (Val : Type) (opts : List TOption) : Trie Val :=
  opts.foldl applyOpt
    { root := .mk [] none, singleWild := "", multiWild := "", separator := "",
      isSWild := false, isMWild := false }

/-- The single error kind of the library (Go builds an error string; the
spec calls it InvalidWildcardPosition). -/
inductive TrieErr where
  | invalidWildcardPosition (wild : String)
deriving DecidableEq

/-- Insert walk: checks the multi-wildcard position before creating the
node for the current segment, so segments before an offending position
have already been added when the walk fails (exactly as in the Go loop,
which mutates as it goes and returns early on the error). -/
def insAux {Val : Type} (isMW : Bool) (mw : String) (v : Option Val) :
    List String → Node Val → Node Val × Bool
  | [], .mk cs _ => (.mk cs v, true)
  | p :: ps, .mk cs w =>
    if (isMW && p == mw && !ps.isEmpty) = true then (.mk cs w, false)
    else
      let c := (lookupA cs p).getD (.mk [] none)
      let r := insAux isMW mw v ps c
      (.mk (upsertA cs p r.1) w, r.2)

def Trie.Insert {Val : Type} (t : Trie Val) (key : String) (v : Option Val) :
    Trie Val × Bool × Option TrieErr :=
  let r := insAux t.isMWild t.multiWild v (goSplit key t.separator) t.root
  ({ t with root := r.1 }, r.2,
    if r.2 then none else some (.invalidWildcardPosition t.multiWild))

/-- Retrieve walk: same positional check as Insert, no node creation; a
missing child returns absent with no error. -/
def retAux {Val : Type} (isMW : Bool) (mw : String) :
    List String → Node Val → Except TrieErr (Option Val)
  | [], n => .ok n.value
  | p :: ps, n =>
    if (isMW && p == mw && !ps.isEmpty) = true then
      .error (.invalidWildcardPosition mw)
    else
      match lookupA n.children p with
      | none => .ok none
      | some c => retAux isMW mw ps c

def Trie.Retrieve {Val : Type} (t : Trie Val) (key : String) :
    Except TrieErr (Option Val) :=
  retAux t.isMWild t.multiWild (goSplit key t.separator) t.root

/-- Delete walk with bottom-up pruning: the recursion returns the
updated subtree; the caller erases the child when it came back with no
value and no children (the condition the Go loop checks before deleting
the entry from the parent map), otherwise writes it back. -/
def delAux {Val : Type} : List String → Node Val → Option (Node Val)
  | [], .mk cs v => if v.isSome then some (.mk cs none) else none
  | p :: ps, .mk cs v =>
    match lookupA cs p with
    | none => none
    | some c =>
      match delAux ps c with
      | none => none
      | some c2 =>
        if c2.value.isNone = true ∧ c2.children.isEmpty = true then
          some (.mk (eraseA cs p) v)
        else some (.mk (upsertA cs p c2) v)

def Trie.Delete {Val : Type} (t : Trie Val) (key : String) : Bool × Trie Val :=
  match delAux (goSplit key t.separator) t.root with
  | none => (false, t)
  | some r => (true, { t with root := r })

/-- Result record produced by Match, as in the Go KeyValue struct. -/
structure KeyValue (Val : Type) where
  Key : String
  Value : Option Val
deriving DecidableEq

/-- A frame of the explicit traversal stack of Match (Go stackNode). -/
structure Frame (Val : Type) where
  node : Node Val
  i : Nat
  keypart : String

/-- Outcome of the fuel-driven Match loop: out of fuel, a runtime panic
from indexing the pattern out of range, or normal completion. -/
inductive MRes (Val : Type) where
  | out
  | panicked
  | done (found : List (KeyValue Val))
deriving DecidableEq

/-- collectAll of the source: explicit stack, collecting every
value-bearing node of a subtree; children are pushed so that they are
popped in list order. -/
def collectLoop {Val : Type} (sep : String) :
    Nat → List (Node Val × String) → List (KeyValue Val) →
      Option (List (KeyValue Val))
  | 0, _, _ => none
  | _ + 1, [], acc => some acc
  | f + 1, (n, kp) :: rest, acc =>
    let acc2 := if n.value.isSome then acc ++ [⟨kp, n.value⟩] else acc
    collectLoop sep f
      ((n.children.map (fun kc => (kc.2, kp ++ kc.1 ++ sep))).reverse ++ rest) acc2

/-- Step of Match at a single-level wildcard pattern segment: at the
last pattern index collect value-bearing children, otherwise push a
continuation frame for every child. -/
def swNext {Val : Type} (t : Trie Val) (parts : List String) (fr : Frame Val)
    (rest : List (Frame Val)) (acc : List (KeyValue Val)) :
    List (Frame Val) × List (KeyValue Val) :=
  if fr.i = parts.length - 1 then
    (rest, acc ++ fr.node.children.filterMap (fun kc =>
      if kc.2.value.isSome then some ⟨fr.keypart ++ kc.1, kc.2.value⟩ else none))
  else
    ((fr.node.children.map (fun kc =>
        Frame.mk kc.2 (fr.i + 1) (fr.keypart ++ kc.1 ++ t.separator))).reverse ++ rest,
      acc)

/-- Step of Match at a literal pattern segment: the exact child, then the
single-wildcard child, then the multi-wildcard child, exactly as the
three independent branches of the source.  Note that the first two
branches push a continuation frame even when the current index is the
last one (when the child holds no value), and that the multi-wildcard
child is emitted without checking that its value is present. -/
def litNext {Val : Type} (t : Trie Val) (parts : List String) (pi : String)
    (fr : Frame Val) (rest : List (Frame Val)) (acc : List (KeyValue Val)) :
    List (Frame Val) × List (KeyValue Val) :=
  let s1 : List (Frame Val) × List (KeyValue Val) :=
    match lookupA fr.node.children pi with
    | none => (rest, acc)
    | some c =>
      if fr.i = parts.length - 1 ∧ c.value.isSome = true then
        (rest, acc ++ [⟨fr.keypart ++ pi, c.value⟩])
      else
        (Frame.mk c (fr.i + 1) (fr.keypart ++ pi ++ t.separator) :: rest, acc)
  let s2 : List (Frame Val) × List (KeyValue Val) :=
    if t.isSWild = true then
      match lookupA fr.node.children t.singleWild with
      | none => s1
      | some c =>
        if fr.i = parts.length - 1 ∧ c.value.isSome = true then
          (s1.1, s1.2 ++ [⟨fr.keypart ++ t.singleWild, c.value⟩])
        else
          (Frame.mk c (fr.i + 1) (fr.keypart ++ t.singleWild ++ t.separator) :: s1.1,
            s1.2)
    else s1
  if t.isMWild = true then
    match lookupA fr.node.children t.multiWild with
    | none => s2
    | some c => (s2.1, s2.2 ++ [⟨fr.keypart ++ t.multiWild, c.value⟩])
  else s2

/-- The Match loop of the source: pop a frame, read the pattern segment
at its index (out of range panics, as in Go), and dispatch on the three
segment kinds. -/
def matchLoop {Val : Type} (t : Trie Val) (parts : List String) :
    Nat → List (Frame Val) → List (KeyValue Val) → MRes Val
  | 0, _, _ => .out
  | _ + 1, [], acc => .done acc
  | f + 1, fr :: rest, acc =>
    match parts.get? fr.i with
    | none => .panicked
    | some pi =>
      if t.isMWild = true ∧ pi = t.multiWild then
        match collectLoop t.separator f [(fr.node, fr.keypart)] acc with
        | none => .out
        | some acc2 => matchLoop t parts f rest acc2
      else if t.isSWild = true ∧ pi = t.singleWild then
        matchLoop t parts f (swNext t parts fr rest acc).1 (swNext t parts fr rest acc).2
      else
        matchLoop t parts f (litNext t parts pi fr rest acc).1
          (litNext t parts pi fr rest acc).2

def Trie.Match {Val : Type} (t : Trie Val) (key : String) (fuel : Nat) : MRes Val :=
  matchLoop t (goSplit key t.separator) fuel [⟨t.root, 0, ""⟩] []

/-- Number of matches of a completed Match run. -/
def matchCount {Val : Type} : MRes Val → Option Nat
  | .done ms => some ms.length
  | _ => none

/-- Validity of an insert key, read off the per-segment check of the
Insert loop: the multi-level wildcard may only occupy the final
position. -/
def partsOKIns (isMW : Bool) (mw : String) : List String → Bool
  | [] => true
  | p :: ps => (!(isMW && p == mw && !ps.isEmpty)) && partsOKIns isMW mw ps

/-- The value stored at the end of a segment path (absent when the path
is missing or the terminal node holds no value). -/
def valueAt {Val : Type} : List String → Node Val → Option Val
  | [], n => n.value
  | p :: ps, n =>
    match lookupA n.children p with
    | none => none
    | some c => valueAt ps c

section AssocLemmas

variable {β : Type}

@[simp] theorem lookupA_nil (key : String) : lookupA ([] : List (String × β)) key = none := rfl

theorem lookupA_upsertA_self (l : List (String × β)) (key : String) (v : β) :
    lookupA (upsertA l key v) key = some v := by
  induction l with
  | nil => simp [upsertA, lookupA]
  | cons kv rest ih =>
    obtain ⟨k, w⟩ := kv
    by_cases h : k = key
    · simp [upsertA, h, lookupA]
    · simp [upsertA, h, lookupA, ih]

theorem lookupA_upsertA_ne (l : List (String × β)) (key key2 : String) (v : β)
    (h : key ≠ key2) : lookupA (upsertA l key v) key2 = lookupA l key2 := by
  induction l with
  | nil => simp [upsertA, lookupA, h]
  | cons kv rest ih =>
    obtain ⟨k, w⟩ := kv
    by_cases hk : k = key
    · subst hk; simp [upsertA, lookupA, h, ih]
    · simp [upsertA, hk, lookupA, ih]

theorem upsertA_upsertA (l : List (String × β)) (key : String) (v w : β) :
    upsertA (upsertA l key v) key w = upsertA l key w := by
  induction l with
  | nil => simp [upsertA]
  | cons kv rest ih =>
    obtain ⟨k, u⟩ := kv
    by_cases h : k = key
    · simp [upsertA, h]
    · simp [upsertA, h, ih]

theorem upsertA_ne_nil (l : List (String × β)) (key : String) (v : β) :
    upsertA l key v ≠ [] := by
  cases l with
  | nil => simp [upsertA]
  | cons kv rest =>
    obtain ⟨k, w⟩ := kv
    by_cases h : k = key <;> simp [upsertA, h]

end AssocLemmas

section InsertLemmas

variable {Val : Type}

/-- Values stored in the empty node: none, along every path. -/
theorem valueAt_empty : ∀ qs : List String, valueAt qs (Node.mk ([] : List (String × Node Val)) none) = none
  | [] => rfl
  | q :: qs => rfl

/-- The success flag of the insert walk depends only on the segment
list, never on the tree. -/
theorem insAux_flag (isMW : Bool) (mw : String) (v : Option Val) :
    ∀ (ps : List String) (n : Node Val),
      (insAux isMW mw v ps n).2 = partsOKIns isMW mw ps := by
  intro ps
  induction ps with
  | nil => intro n; cases n; rfl
  | cons p ps ih =>
    intro n
    cases n with
    | mk cs w =>
      cases hb : (isMW && p == mw && !ps.isEmpty) with
      | true => simp [insAux, hb, partsOKIns]
      | false => simp [insAux, hb, partsOKIns, ih]

/-- After a successful insert walk, retrieving along the same segments
finds exactly the inserted value. -/
theorem retAux_insAux (isMW : Bool) (mw : String) (v : Option Val) :
    ∀ (ps : List String) (n : Node Val),
      partsOKIns isMW mw ps = true →
      retAux isMW mw ps (insAux isMW mw v ps n).1 = .ok v := by
  intro ps
  induction ps with
  | nil => intro n _; cases n; simp [insAux, retAux, Node.value]
  | cons p ps ih =>
    intro n hok
    cases n with
    | mk cs w =>
      cases hb : (isMW && p == mw && !ps.isEmpty) with
      | true => simp [partsOKIns, hb] at hok
      | false =>
        have hok2 : partsOKIns isMW mw ps = true := by
          simpa [partsOKIns, hb] using hok
        simp [insAux, retAux, hb, Node.children, lookupA_upsertA_self]
        exact ih _ hok2

/-- Inserting twice along the same key is the same as inserting the
final value once (idempotence / no extra state). -/
theorem insAux_twice (isMW : Bool) (mw : String) (v1 v2 : Option Val) :
    ∀ (ps : List String) (n : Node Val),
      insAux isMW mw v2 ps (insAux isMW mw v1 ps n).1 = insAux isMW mw v2 ps n := by
  intro ps
  induction ps with
  | nil => intro n; cases n; simp [insAux]
  | cons p ps ih =>
    intro n
    cases n with
    | mk cs w =>
      cases hb : (isMW && p == mw && !ps.isEmpty) with
      | true => simp [insAux, hb]
      | false =>
        simp [insAux, hb, Node.children, lookupA_upsertA_self, ih, upsertA_upsertA]

/-- The tree left behind by a failed insert stores exactly the same
values at every path as the original (the nodes it may have created
along the prefix are empty). -/
theorem insAux_fail_valueAt (isMW : Bool) (mw : String) (v : Option Val) :
    ∀ (ps : List String) (n : Node Val),
      (insAux isMW mw v ps n).2 = false →
      ∀ qs : List String, valueAt qs (insAux isMW mw v ps n).1 = valueAt qs n := by
  intro ps
  induction ps with
  | nil => intro n h; cases n; simp [insAux] at h
  | cons p ps ih =>
    intro n hfail qs
    cases n with
    | mk cs w =>
      cases hb : (isMW && p == mw && !ps.isEmpty) with
      | true => simp [insAux, hb]
      | false =>
        simp only [insAux, hb, Bool.false_eq_true, if_false] at hfail ⊢
        cases hl : lookupA cs p with
        | some c =>
          simp only [hl, Option.getD_some] at hfail ⊢
          cases qs with
          | nil => simp [valueAt, Node.value]
          | cons q qs =>
            simp only [valueAt, Node.children]
            by_cases hq : p = q
            · subst hq
              rw [lookupA_upsertA_self, hl]
              exact ih c hfail qs
            · rw [lookupA_upsertA_ne _ _ _ _ hq]
        | none =>
          simp only [hl, Option.getD_none] at hfail ⊢
          cases qs with
          | nil => simp [valueAt, Node.value]
          | cons q qs =>
            simp only [valueAt, Node.children]
            by_cases hq : p = q
            · subst hq
              rw [lookupA_upsertA_self, hl]
              show valueAt qs (insAux isMW mw v ps (Node.mk [] none)).1 = none
              rw [ih _ hfail qs, valueAt_empty]
            · rw [lookupA_upsertA_ne _ _ _ _ hq]

/-- A key whose segments avoid the multi-level wildcard token passes the
insert check. -/
theorem partsOKIns_of_no_mw (isMW : Bool) (mw : String) (ps : List String)
    (h : ∀ p ∈ ps, isMW = true → p ≠ mw) : partsOKIns isMW mw ps = true := by
  induction ps with
  | nil => rfl
  | cons p ps ih =>
    have hrest : partsOKIns isMW mw ps = true :=
      ih (fun q hq => h q (List.mem_cons_of_mem _ hq))
    cases hm : isMW with
    | false =>
      rw [hm] at hrest
      simp [partsOKIns, hrest]
    | true =>
      rw [hm] at hrest
      have hne : p ≠ mw := h p (List.mem_cons_self _ _) hm
      simp [partsOKIns, hrest, hne]

end InsertLemmas

section DeleteLemmas

variable {Val : Type}

/-- When the path is missing or its terminal node holds no value, the
delete walk reports failure. -/
theorem delAux_of_valueAt_none :
    ∀ (ps : List String) (n : Node Val),
      valueAt ps n = none → delAux ps n = none := by
  intro ps
  induction ps with
  | nil =>
    intro n h
    cases n with
    | mk cs v =>
      simp only [valueAt, Node.value] at h
      simp [delAux, h]
  | cons p ps ih =>
    intro n h
    cases n with
    | mk cs v =>
      simp only [valueAt, Node.children] at h
      cases hl : lookupA cs p with
      | none => simp [delAux, hl]
      | some c =>
        rw [hl] at h
        simp [delAux, hl, ih c h]

end DeleteLemmas

/-- The pruning invariant below a node: every node of the forest of
children has a stored value or at least one child, recursively. -/
def subOKL {Val : Type} : List (String × Node Val) → Bool
  | [] => true
  | (_, Node.mk cs v) :: rest => ((v.isSome || !cs.isEmpty) && subOKL cs) && subOKL rest

/-- The pruning invariant at a single non-root node. -/
def subOK {Val : Type} (n : Node Val) : Bool :=
  (n.value.isSome || !n.children.isEmpty) && subOKL n.children

/-- The pruning invariant of a trie: it holds for every node except
possibly the root. -/
def trieOK {Val : Type} (t : Trie Val) : Bool := subOKL t.root.children

section InvariantLemmas

variable {Val : Type}

theorem subOKL_cons (k : String) (c : Node Val) (rest : List (String × Node Val)) :
    subOKL ((k, c) :: rest) = (subOK c && subOKL rest) := by
  cases c; simp [subOKL, subOK, Node.value, Node.children]

theorem subOKL_lookup {l : List (String × Node Val)} {p : String} {c : Node Val}
    (hl : subOKL l = true) (hc : lookupA l p = some c) : subOK c = true := by
  induction l with
  | nil => simp [lookupA] at hc
  | cons kv rest ih =>
    obtain ⟨k, w⟩ := kv
    rw [subOKL_cons, Bool.and_eq_true] at hl
    by_cases hk : k = p
    · simp only [lookupA, if_pos hk] at hc
      cases hc; exact hl.1
    · simp only [lookupA, if_neg hk] at hc
      exact ih hl.2 hc

theorem subOKL_upsert {l : List (String × Node Val)} {p : String} {c : Node Val}
    (hl : subOKL l = true) (hc : subOK c = true) :
    subOKL (upsertA l p c) = true := by
  induction l with
  | nil => simp [upsertA, subOKL_cons, subOKL, hc]
  | cons kv rest ih =>
    obtain ⟨k, w⟩ := kv
    rw [subOKL_cons, Bool.and_eq_true] at hl
    by_cases hk : k = p
    · simp only [upsertA, if_pos hk]
      rw [subOKL_cons]
      simp [hc, hl.2]
    · simp only [upsertA, if_neg hk]
      rw [subOKL_cons]
      simp [hl.1, ih hl.2]

theorem subOKL_erase {l : List (String × Node Val)} (p : String)
    (hl : subOKL l = true) : subOKL (eraseA l p) = true := by
  induction l with
  | nil => simp [eraseA, subOKL]
  | cons kv rest ih =>
    obtain ⟨k, w⟩ := kv
    rw [subOKL_cons, Bool.and_eq_true] at hl
    by_cases hk : k = p
    · simp only [eraseA, if_pos hk]
      exact hl.2
    · simp only [eraseA, if_neg hk]
      rw [subOKL_cons]
      simp [hl.1, ih hl.2]

/-- A successful insert of a present value preserves the pruning
invariant below the node, and leaves the node itself with a value or a
child. -/
theorem insAux_subOKL (isMW : Bool) (mw : String) (v : Option Val)
    (hv : v.isSome = true) :
    ∀ (ps : List String) (n : Node Val),
      partsOKIns isMW mw ps = true →
      subOKL n.children = true →
      subOKL (insAux isMW mw v ps n).1.children = true ∧
        ((insAux isMW mw v ps n).1.value.isSome
          || !(insAux isMW mw v ps n).1.children.isEmpty) = true := by
  intro ps
  induction ps with
  | nil =>
    intro n hok hsub
    cases n with
    | mk cs w => simpa [insAux, Node.children, Node.value, hv] using hsub
  | cons p ps ih =>
    intro n hok hsub
    cases n with
    | mk cs w =>
      have hb : (isMW && p == mw && !ps.isEmpty) = false := by
        rcases hb2 : (isMW && p == mw && !ps.isEmpty) with _ | _
        · rfl
        · simp [partsOKIns, hb2] at hok
      have hok2 : partsOKIns isMW mw ps = true := by
        simpa [partsOKIns, hb] using hok
      simp only [insAux, hb, Bool.false_eq_true, if_false]
      have hcsub : subOKL ((lookupA cs p).getD (Node.mk [] none)).children = true := by
        cases hl : lookupA cs p with
        | none => simp [Node.children, subOKL]
        | some c =>
          have := subOKL_lookup (by simpa [Node.children] using hsub) hl
          rw [subOK, Bool.and_eq_true] at this
          simp [hl, this.2]
      have hrec := ih ((lookupA cs p).getD (Node.mk [] none)) hok2 hcsub
      constructor
      · simp only [Node.children]
        refine subOKL_upsert (by simpa [Node.children] using hsub) ?_
        rw [subOK, Bool.and_eq_true]
        exact ⟨hrec.2, hrec.1⟩
      · simp only [Node.children, Node.value, Bool.or_eq_true, Bool.not_eq_true']
        right
        rcases he : (upsertA cs p (insAux isMW mw v ps
            ((lookupA cs p).getD (Node.mk [] none))).1).isEmpty with _ | _
        · rfl
        · exact absurd (List.isEmpty_iff.mp he) (upsertA_ne_nil _ _ _)

/-- Delete preserves the pruning invariant below the node. -/
theorem delAux_subOKL :
    ∀ (ps : List String) (n n2 : Node Val),
      subOKL n.children = true →
      delAux ps n = some n2 → subOKL n2.children = true := by
  intro ps
  induction ps with
  | nil =>
    intro n n2 hsub hdel
    cases n with
    | mk cs v =>
      simp only [delAux] at hdel
      rcases hv : v.isSome with _ | _
      · simp [hv] at hdel
      · rw [hv] at hdel
        simp only [if_pos rfl, Option.some_inj] at hdel
        cases hdel
        simpa [Node.children] using hsub
  | cons p ps ih =>
    intro n n2 hsub hdel
    cases n with
    | mk cs v =>
      simp only [delAux] at hdel
      split at hdel
      · cases hdel
      · rename_i c hl
        split at hdel
        · cases hdel
        · rename_i c2 hd
          have hc2sub : subOKL c2.children = true := by
            have hcok := subOKL_lookup (by simpa [Node.children] using hsub) hl
            rw [subOK, Bool.and_eq_true] at hcok
            exact ih c c2 hcok.2 hd
          split at hdel
          · rename_i hcond
            rw [Option.some_inj] at hdel
            subst hdel
            simp only [Node.children]
            exact subOKL_erase p (by simpa [Node.children] using hsub)
          · rename_i hcond
            rw [Option.some_inj] at hdel
            subst hdel
            simp only [Node.children]
            refine subOKL_upsert (by simpa [Node.children] using hsub) ?_
            rw [subOK, Bool.and_eq_true]
            refine ⟨?_, hc2sub⟩
            rcases hvv : c2.value with _ | x
            · have hemp : c2.children.isEmpty = false := by
                rcases he : c2.children.isEmpty with _ | _
                · rfl
                · exact absurd ⟨by simp [hvv], he⟩ hcond
              simp [hemp]
            · simp [hvv]

end InvariantLemmas

/-- Mutating operations on a trie, for stating state-evolution
invariants. -/
inductive Op (Val : Type) where
  | ins (k : String) (v : Option Val)
  | del (k : String)

def applyOp {Val : Type} (t : Trie Val) : Op Val → Trie Val
  | .ins k v => (t.Insert k v).1
  | .del k => (t.Delete k).2

def applyOps {Val : Type} (t : Trie Val) (ops : List (Op Val)) : Trie Val :=
  ops.foldl applyOp t

/-- An operation that keeps the pruning invariant: deletes always do;
inserts when they carry a present value and a validly placed wildcard
(so that they succeed). -/
def opOK {Val : Type} (isMW : Bool) (mw sep : String) : Op Val → Bool
  | .ins k v => v.isSome && partsOKIns isMW mw (goSplit k sep)
  | .del _ => true

section OpLemmas

variable {Val : Type}

theorem applyOp_isMWild (t : Trie Val) (op : Op Val) :
    (applyOp t op).isMWild = t.isMWild := by
  cases op with
  | ins k v => rfl
  | del k =>
    simp only [applyOp, Trie.Delete]
    cases delAux (goSplit k t.separator) t.root <;> rfl

theorem applyOp_multiWild (t : Trie Val) (op : Op Val) :
    (applyOp t op).multiWild = t.multiWild := by
  cases op with
  | ins k v => rfl
  | del k =>
    simp only [applyOp, Trie.Delete]
    cases delAux (goSplit k t.separator) t.root <;> rfl

theorem applyOp_separator (t : Trie Val) (op : Op Val) :
    (applyOp t op).separator = t.separator := by
  cases op with
  | ins k v => rfl
  | del k =>
    simp only [applyOp, Trie.Delete]
    cases delAux (goSplit k t.separator) t.root <;> rfl

theorem applyOp_trieOK (t : Trie Val) (op : Op Val)
    (hok : opOK t.isMWild t.multiWild t.separator op = true)
    (ht : trieOK t = true) : trieOK (applyOp t op) = true := by
  cases op with
  | ins k v =>
    rw [opOK, Bool.and_eq_true] at hok
    simpa [applyOp, Trie.Insert, trieOK] using
      (insAux_subOKL t.isMWild t.multiWild v hok.1 (goSplit k t.separator) t.root
        hok.2 (by simpa [trieOK] using ht)).1
  | del k =>
    simp only [applyOp, Trie.Delete]
    cases hd : delAux (goSplit k t.separator) t.root with
    | none => simpa [trieOK] using ht
    | some r =>
      simpa [trieOK] using
        delAux_subOKL (goSplit k t.separator) t.root r (by simpa [trieOK] using ht) hd

theorem applyOps_trieOK (t : Trie Val) (ops : List (Op Val))
    (hops : ∀ op ∈ ops, opOK t.isMWild t.multiWild t.separator op = true)
    (ht : trieOK t = true) : trieOK (applyOps t ops) = true := by
  induction ops generalizing t with
  | nil => simpa [applyOps] using ht
  | cons op ops ih =>
    simp only [applyOps, List.foldl_cons]
    have h1 : trieOK (applyOp t op) = true :=
      applyOp_trieOK t op (hops op (List.mem_cons_self _ _)) ht
    have h2 : ∀ o ∈ ops,
        opOK (applyOp t op).isMWild (applyOp t op).multiWild
          (applyOp t op).separator o = true := by
      intro o ho
      rw [applyOp_isMWild, applyOp_multiWild, applyOp_separator]
      exact hops o (List.mem_cons_of_mem _ ho)
    exact ih (applyOp t op) h2 h1

theorem foldl_applyOpt_root {Val : Type} (opts : List TOption) :
    ∀ t : Trie Val, (opts.foldl applyOpt t).root = t.root := by
  induction opts with
  | nil => intro t; rfl
  | cons o opts ih =>
    intro t
    rw [List.foldl_cons, ih]
    cases o <;> rfl

theorem trieOK_New (Val : Type) (opts : List TOption) :
    trieOK (New Val opts) = true := by
  rw [trieOK, New, foldl_applyOpt_root]
  simp [Node.children, subOKL]

end OpLemmas

section FuelLemmas

variable {Val : Type}

/-- Once the subtree-collection loop finishes within some fuel, more
fuel gives the same result. -/
theorem collectLoop_mono (sep : String) :
    ∀ (f g : Nat) (frames : List (Node Val × String)) (acc : List (KeyValue Val)),
      f ≤ g → collectLoop sep f frames acc ≠ none →
      collectLoop sep g frames acc = collectLoop sep f frames acc := by
  intro f
  induction f with
  | zero => intro g frames acc _ hne; exact absurd rfl hne
  | succ f ih =>
    intro g frames acc hle hne
    obtain ⟨g, rfl⟩ : ∃ g2, g = g2 + 1 := ⟨g - 1, by omega⟩
    cases frames with
    | nil => rfl
    | cons fr rest =>
      obtain ⟨n, kp⟩ := fr
      simp only [collectLoop] at hne ⊢
      exact ih g _ _ (by omega) hne

/-- Once the Match loop finishes (or panics) within some fuel, more fuel
gives the same result. -/
theorem matchLoop_mono (t : Trie Val) (parts : List String) :
    ∀ (f g : Nat) (st : List (Frame Val)) (acc : List (KeyValue Val)),
      f ≤ g → matchLoop t parts f st acc ≠ .out →
      matchLoop t parts g st acc = matchLoop t parts f st acc := by
  intro f
  induction f with
  | zero => intro g st acc _ hne; exact absurd rfl hne
  | succ f ih =>
    intro g st acc hle hne
    obtain ⟨g, rfl⟩ : ∃ g2, g = g2 + 1 := ⟨g - 1, by omega⟩
    cases st with
    | nil => rfl
    | cons fr rest =>
      simp only [matchLoop] at hne ⊢
      cases hpi : parts.get? fr.i with
      | none => simp [hpi]
      | some pi =>
        simp only [hpi] at hne ⊢
        by_cases hmw : t.isMWild = true ∧ pi = t.multiWild
        · simp only [if_pos hmw] at hne ⊢
          cases hc : collectLoop t.separator f [(fr.node, fr.keypart)] acc with
          | none => simp [hc] at hne
          | some acc2 =>
            have hg : collectLoop t.separator g [(fr.node, fr.keypart)] acc = some acc2 := by
              rw [collectLoop_mono t.separator f g _ _ (by omega) (by simp [hc])]
              exact hc
            simp only [hc, hg]
            simp only [hc] at hne
            exact ih g rest acc2 (by omega) hne
        · simp only [if_neg hmw] at hne ⊢
          by_cases hsw : t.isSWild = true ∧ pi = t.singleWild
          · simp only [if_pos hsw] at hne ⊢
            exact ih g _ _ (by omega) hne
          · simp only [if_neg hsw] at hne ⊢
            exact ih g _ _ (by omega) hne

end FuelLemmas

section CollectKeyLemmas

variable {Val : Type}

/-- Keys reconstructed by the subtree-collection loop: provided every
pending frame either has a prefix ending in the separator or sits at a
valueless node, every collected key ends in the separator (children are
always pushed with a prefix extended by segment-plus-separator). -/
theorem collectLoop_keys (sep : String) :
    ∀ (f : Nat) (frames : List (Node Val × String)) (acc out : List (KeyValue Val)),
      (∀ fr ∈ frames, (∃ q, fr.2 = q ++ sep) ∨ fr.1.value = none) →
      (∀ kv ∈ acc, ∃ q, kv.Key = q ++ sep) →
      collectLoop sep f frames acc = some out →
      ∀ kv ∈ out, ∃ q, kv.Key = q ++ sep := by
  intro f
  induction f with
  | zero => intro frames acc out _ _ h; cases h
  | succ f ih =>
    intro frames acc out hfr hacc hout
    cases frames with
    | nil =>
      simp only [collectLoop, Option.some_inj] at hout
      subst hout; exact hacc
    | cons fr rest =>
      obtain ⟨n, kp⟩ := fr
      have hnew : ∀ fr2 ∈ (n.children.map
          (fun kc => (kc.2, kp ++ kc.1 ++ sep))).reverse ++ rest,
          (∃ q, fr2.2 = q ++ sep) ∨ fr2.1.value = none := by
        intro fr2 hfr2
        rw [List.mem_append, List.mem_reverse, List.mem_map] at hfr2
        rcases hfr2 with ⟨kc, hkc, heq⟩ | h2
        · subst heq; exact Or.inl ⟨kp ++ kc.1, rfl⟩
        · exact hfr fr2 (List.mem_cons_of_mem _ h2)
      rcases hv : n.value.isSome with _ | _
      · simp only [collectLoop, hv, Bool.false_eq_true, if_false] at hout
        exact ih _ _ _ hnew hacc hout
      · simp only [collectLoop, hv, if_true] at hout
        refine ih _ _ _ hnew ?_ hout
        intro kv hkv
        rw [List.mem_append, List.mem_singleton] at hkv
        rcases hkv with h | rfl
        · exact hacc _ h
        · rcases hfr (n, kp) (List.mem_cons_self _ _) with h | h
          · exact h
          · rw [h] at hv; cases hv

/-- Values collected by the subtree-collection loop are always present
(the loop only appends when value is non-nil). -/
theorem collectLoop_values (sep : String) :
    ∀ (f : Nat) (frames : List (Node Val × String)) (acc out : List (KeyValue Val)),
      (∀ kv ∈ acc, kv.Value.isSome = true) →
      collectLoop sep f frames acc = some out →
      ∀ kv ∈ out, kv.Value.isSome = true := by
  intro f
  induction f with
  | zero => intro frames acc out _ h; cases h
  | succ f ih =>
    intro frames acc out hacc hout
    cases frames with
    | nil =>
      simp only [collectLoop, Option.some_inj] at hout
      subst hout; exact hacc
    | cons fr rest =>
      obtain ⟨n, kp⟩ := fr
      rcases hv : n.value.isSome with _ | _
      · simp only [collectLoop, hv, Bool.false_eq_true, if_false] at hout
        exact ih _ _ _ hacc hout
      · simp only [collectLoop, hv, if_true] at hout
        refine ih _ _ _ ?_ hout
        intro kv hkv
        rw [List.mem_append, List.mem_singleton] at hkv
        rcases hkv with h | rfl
        · exact hacc _ h
        · simpa using hv

end CollectKeyLemmas

section NilValueLemmas

variable {Val : Type}

/-- The single-wildcard step only emits matches whose value is
present. -/
theorem swNext_values (t : Trie Val) (parts : List String) (fr : Frame Val)
    (rest : List (Frame Val)) (acc : List (KeyValue Val))
    (hacc : ∀ kv ∈ acc, kv.Value.isSome = true) :
    ∀ kv ∈ (swNext t parts fr rest acc).2, kv.Value.isSome = true := by
  intro kv hkv
  rw [swNext] at hkv
  split at hkv
  · simp only [List.mem_append, List.mem_filterMap] at hkv
    rcases hkv with h | ⟨kc, hkc, heq⟩
    · exact hacc _ h
    · split at heq
      · rename_i hval
        cases heq; simpa using hval
      · cases heq
  · exact hacc _ hkv

/-- With the multi-level wildcard disabled, the literal step only emits
matches whose value is present (the unguarded multi-wildcard site is the
only one that can emit an absent value). -/
theorem litNext_values (t : Trie Val) (hmw : t.isMWild = false)
    (parts : List String) (pi : String) (fr : Frame Val)
    (rest : List (Frame Val)) (acc : List (KeyValue Val))
    (hacc : ∀ kv ∈ acc, kv.Value.isSome = true) :
    ∀ kv ∈ (litNext t parts pi fr rest acc).2, kv.Value.isSome = true := by
  have hs1 : ∀ kv ∈ (match lookupA fr.node.children pi with
      | none => (rest, acc)
      | some c =>
        if fr.i = parts.length - 1 ∧ c.value.isSome = true then
          (rest, acc ++ [KeyValue.mk (fr.keypart ++ pi) c.value])
        else
          (Frame.mk c (fr.i + 1) (fr.keypart ++ pi ++ t.separator) :: rest, acc)).2,
      kv.Value.isSome = true := by
    intro kv hkv
    split at hkv
    · exact hacc _ hkv
    · rename_i c hc
      split at hkv
      · rename_i hcond
        simp only [List.mem_append, List.mem_singleton] at hkv
        rcases hkv with h | rfl
        · exact hacc _ h
        · exact hcond.2
      · exact hacc _ hkv
  intro kv hkv
  rw [litNext] at hkv
  simp only [hmw, Bool.false_eq_true, if_false] at hkv
  split at hkv
  · split at hkv
    · exact hs1 _ hkv
    · rename_i c hc
      split at hkv
      · rename_i hcond
        simp only [List.mem_append, List.mem_singleton] at hkv
        rcases hkv with h | rfl
        · exact hs1 _ h
        · exact hcond.2
      · exact hs1 _ hkv
  · exact hs1 _ hkv

/-- With the multi-level wildcard disabled, every match the Match loop
completes with carries a present value: the only collection site that
skips the value check is the multi-wildcard-child one. -/
theorem matchLoop_values_noMW (t : Trie Val) (parts : List String)
    (hmw : t.isMWild = false) :
    ∀ (f : Nat) (st : List (Frame Val)) (acc out : List (KeyValue Val)),
      (∀ kv ∈ acc, kv.Value.isSome = true) →
      matchLoop t parts f st acc = .done out →
      ∀ kv ∈ out, kv.Value.isSome = true := by
  intro f
  induction f with
  | zero => intro st acc out _ h; cases h
  | succ f ih =>
    intro st acc out hacc hout
    cases st with
    | nil =>
      simp only [matchLoop, MRes.done.injEq] at hout
      subst hout; exact hacc
    | cons fr rest =>
      simp only [matchLoop] at hout
      cases hpi : parts.get? fr.i with
      | none => simp only [hpi] at hout; cases hout
      | some pi =>
        simp only [hpi] at hout
        have hnotmw : ¬ (t.isMWild = true ∧ pi = t.multiWild) := by
          rintro ⟨h1, _⟩; rw [hmw] at h1; cases h1
        simp only [if_neg hnotmw] at hout
        by_cases hsw : t.isSWild = true ∧ pi = t.singleWild
        · simp only [if_pos hsw] at hout
          exact ih _ _ _ (swNext_values t parts fr rest acc hacc) hout
        · simp only [if_neg hsw] at hout
          exact ih _ _ _ (litNext_values t hmw parts pi fr rest acc hacc) hout

end NilValueLemmas

/-- Fuel monotonicity at the level of Match. -/
theorem Match_mono {Val : Type} (t : Trie Val) (key : String) (f g : Nat)
    (hle : f ≤ g) (hne : t.Match key f ≠ MRes.out) :
    t.Match key g = t.Match key f :=
  matchLoop_mono t (goSplit key t.separator) f g _ _ hle hne

/-- The configuration used by the examples of the Go test suite:
separator /, single-level wildcard +, multi-level wildcard #. -/
def stdOpts : List TOption :=
  [.withSingleWild "+", .withMultiWild "#", .withSeparator "/"]

def stdTrie : Trie Nat := New Nat stdOpts

/-- Insert a list of key-value pairs in order. -/
def insertSeq (t : Trie Nat) (kvs : List (String × Nat)) : Trie Nat :=
  kvs.foldl (fun t2 kv => (t2.Insert kv.1 (some kv.2)).1) t

/-- Trie holding the single entry a/b, on which Match "a" reaches the
valueless node a at the last pattern index and then indexes past the
end of the pattern. -/
def trieC1 : Trie Nat := insertSeq stdTrie [("a/b", 1)]

/-- The four overlapping entries of the overlap scenario. -/
def trieC3 : Trie Nat :=
  insertSeq stdTrie [("a/b/c/d", 1), ("a/+/c/d", 2), ("a/b/c/#", 3), ("a/+/+/#", 4)]

/-- The multi-level match scenario: a/b/d/# plus two exact siblings. -/
def trieC5 : Trie Nat :=
  insertSeq stdTrie [("a/b/d/#", 1), ("a/b/c/d", 2), ("a/b/c/f", 3)]

/-- A single literal entry, for observing reconstructed-key shapes. -/
def trieC9 : Trie Nat := insertSeq stdTrie [("a/b/c/d", 1)]

/-- An entry ending in the multi-level wildcard inserted with an absent
(nil) value. -/
def trieC10 : Trie Nat := (stdTrie.Insert "a/#" none).1

/-- A configuration without a multi-level wildcard. -/
def noMWTrie : Trie Nat := New Nat [.withSingleWild "+", .withSeparator "/"]

/-- Claim C1: the spec says Match never errors and always returns a
(possibly empty) match list.  The code refutes this: on a trie built by
New and one successful Insert of a/b, Match "a" pushes a continuation
frame past the final pattern segment (the literal branch lacks the
bound check its single-wildcard sibling has) and then indexes the
pattern out of range: a runtime panic, at every sufficient fuel. -/
theorem claim_C1_match_panics :
    ∀ fuel : Nat, 8 ≤ fuel → trieC1.Match "a" fuel = MRes.panicked := by
  intro fuel hf
  have h8 : trieC1.Match "a" 8 = MRes.panicked := by decide
  rw [Match_mono trieC1 "a" 8 fuel hf (by rw [h8]; intro h; cases h)]
  exact h8

theorem claim_C1_witness : trieC1.Match "a" 8 = MRes.panicked :=
  claim_C1_match_panics 8 (by decide)

/-- Claim C2 counterexample: the failed insert of x/#/b reports the
error but does create a node (the root gains the child x), refuting
that the trie is left completely unmodified. -/
theorem claim_C2_counterexample :
    (stdTrie.Insert "x/#/b" (some 0)).2.1 = false ∧
    stdTrie.root.children.length = 0 ∧
    (stdTrie.Insert "x/#/b" (some 0)).1.root.children.length = 1 :=
  ⟨rfl, rfl, rfl⟩

/-- Claim C2 amended: with the multi-level wildcard configured and
appearing at a non-final segment, Insert returns (false,
InvalidWildcardPosition) and changes no stored value: every path holds
exactly the value it held before.  However, empty nodes for the
segments walked before the offending position may be created. -/
theorem claim_C2_amended {Val : Type} (t : Trie Val) (key : String) (v : Option Val)
    (hbad : partsOKIns t.isMWild t.multiWild (goSplit key t.separator) = false) :
    (t.Insert key v).2.1 = false ∧
    (t.Insert key v).2.2 = some (TrieErr.invalidWildcardPosition t.multiWild) ∧
    ∀ qs : List String, valueAt qs (t.Insert key v).1.root = valueAt qs t.root := by
  have hflag : (insAux t.isMWild t.multiWild v (goSplit key t.separator) t.root).2 = false := by
    rw [insAux_flag]; exact hbad
  refine ⟨?_, ?_, ?_⟩
  · simpa [Trie.Insert] using hflag
  · simp [Trie.Insert, hflag]
  · intro qs
    simpa [Trie.Insert] using
      insAux_fail_valueAt t.isMWild t.multiWild v (goSplit key t.separator) t.root hflag qs

theorem claim_C2_amended_witness :
    (stdTrie.Insert "x/#/b" (some 0)).2.1 = false ∧
    valueAt ["x"] (stdTrie.Insert "x/#/b" (some 0)).1.root = valueAt ["x"] stdTrie.root :=
  ⟨(claim_C2_amended stdTrie "x/#/b" (some 0) (by decide)).1,
   (claim_C2_amended stdTrie "x/#/b" (some 0) (by decide)).2.2 ["x"]⟩

/-- Claim C3 counterexample: on the four overlapping entries, the
pattern a/b/c/d does not yield one match (the literal branch also
follows stored single-wildcard children and emits stored multi-wildcard
children, so it yields all four, as the test suite of the repository
expects). -/
theorem claim_C3_counterexample :
    matchCount (trieC3.Match "a/b/c/d" 100) ≠ some 1 := by decide

/-- Claim C3 amended: after inserting a/b/c/d, a/+/c/d, a/b/c/# and
a/+/+/#, Match "a/b/c/d" yields exactly 4 matches, one per stored
entry. -/
theorem claim_C3_amended :
    ∀ fuel : Nat, 100 ≤ fuel → matchCount (trieC3.Match "a/b/c/d" fuel) = some 4 := by
  intro fuel hf
  have h100 : matchCount (trieC3.Match "a/b/c/d" 100) = some 4 := by decide
  have hne : trieC3.Match "a/b/c/d" 100 ≠ MRes.out := by
    intro h; rw [h] at h100; cases h100
  rw [Match_mono trieC3 "a/b/c/d" 100 fuel hf hne]
  exact h100

theorem claim_C3_amended_witness : matchCount (trieC3.Match "a/b/c/d" 100) = some 4 :=
  claim_C3_amended 100 (by decide)

/-- Claim C4 counterexample: a failed Insert leaves a node with neither
a value nor children below the root (here, the child x left behind by
the rejected key x/#/b), violating the pruning invariant. -/
theorem claim_C4_counterexample :
    trieOK (applyOps stdTrie [Op.ins "x/#/b" (some 0)]) = false := by
  have h : (applyOps stdTrie [Op.ins "x/#/b" (some 0)]).root.children
      = [("x", Node.mk [] none)] := rfl
  rw [trieOK, h, subOKL_cons]
  simp [subOK, subOKL, Node.value, Node.children]

/-- Claim C4 amended: after any sequence of successful Inserts carrying
present values and any Deletes, starting from any configuration, no
node of the trie except possibly the root is both valueless and
childless. -/
theorem claim_C4_amended (Val : Type) (opts : List TOption) (ops : List (Op Val))
    (hops : ∀ op ∈ ops, opOK (New Val opts).isMWild (New Val opts).multiWild
      (New Val opts).separator op = true) :
    trieOK (applyOps (New Val opts) ops) = true :=
  applyOps_trieOK _ _ hops (trieOK_New Val opts)

theorem claim_C4_amended_witness :
    trieOK (applyOps (New Nat stdOpts)
      [Op.ins "a/b" (some 1), Op.ins "a/#" (some 2), Op.del "a/b"]) = true :=
  claim_C4_amended Nat stdOpts _ (by decide)

/-- Claim C5: with a/b/d/#, a/b/c/d and a/b/c/f inserted, the pattern
a/b/+/# yields exactly 3 matches. -/
theorem claim_C5_match_three :
    ∀ fuel : Nat, 100 ≤ fuel → matchCount (trieC5.Match "a/b/+/#" fuel) = some 3 := by
  intro fuel hf
  have h100 : matchCount (trieC5.Match "a/b/+/#" 100) = some 3 := by decide
  have hne : trieC5.Match "a/b/+/#" 100 ≠ MRes.out := by
    intro h; rw [h] at h100; cases h100
  rw [Match_mono trieC5 "a/b/+/#" 100 fuel hf hne]
  exact h100

theorem claim_C5_witness : matchCount (trieC5.Match "a/b/+/#" 100) = some 3 :=
  claim_C5_match_three 100 (by decide)

/-- Claim C6: for a key none of whose segments is an enabled wildcard
token, Insert succeeds and an immediate Retrieve returns exactly the
inserted value with no error. -/
theorem claim_C6_round_trip {Val : Type} (t : Trie Val) (key : String) (v : Option Val)
    (hkey : ∀ p ∈ goSplit key t.separator,
      (t.isSWild = true → p ≠ t.singleWild) ∧ (t.isMWild = true → p ≠ t.multiWild)) :
    (t.Insert key v).2.1 = true ∧
    (t.Insert key v).1.Retrieve key = Except.ok v := by
  have hok : partsOKIns t.isMWild t.multiWild (goSplit key t.separator) = true :=
    partsOKIns_of_no_mw _ _ _ (fun p hp => (hkey p hp).2)
  constructor
  · have hflag := insAux_flag t.isMWild t.multiWild v (goSplit key t.separator) t.root
    simp [Trie.Insert, hflag, hok]
  · simpa [Trie.Insert, Trie.Retrieve] using
      retAux_insAux t.isMWild t.multiWild v (goSplit key t.separator) t.root hok

theorem claim_C6_witness :
    ((New Nat stdOpts).Insert "a/b/c" (some 7)).2.1 = true ∧
    ((New Nat stdOpts).Insert "a/b/c" (some 7)).1.Retrieve "a/b/c" = Except.ok (some 7) :=
  claim_C6_round_trip (New Nat stdOpts) "a/b/c" (some 7) (by decide)

/-- Claim C7: when the key path does not fully exist, or exists but its
terminal node holds no value, Delete returns false and the trie is
returned unchanged. -/
theorem claim_C7_delete_noop {Val : Type} (t : Trie Val) (key : String)
    (h : valueAt (goSplit key t.separator) t.root = none) :
    t.Delete key = (false, t) := by
  simp [Trie.Delete, delAux_of_valueAt_none _ _ h]

theorem claim_C7_witness : trieC1.Delete "a" = (false, trieC1) :=
  claim_C7_delete_noop trieC1 "a" (by decide)

/-- Claim C8: inserting the same insertable key twice keeps only the
latest value and adds no extra state: the state equals the one produced
by a single insert of the final value, and Retrieve finds it. -/
theorem claim_C8_overwrite {Val : Type} (t : Trie Val) (key : String) (v1 v2 : Option Val)
    (hok : partsOKIns t.isMWild t.multiWild (goSplit key t.separator) = true) :
    (((t.Insert key v1).1.Insert key v2).1.Retrieve key = Except.ok v2) ∧
    ((t.Insert key v1).1.Insert key v2).1 = (t.Insert key v2).1 := by
  have hroot := insAux_twice t.isMWild t.multiWild v1 v2 (goSplit key t.separator) t.root
  constructor
  · show retAux t.isMWild t.multiWild (goSplit key t.separator)
      (insAux t.isMWild t.multiWild v2 (goSplit key t.separator)
        (insAux t.isMWild t.multiWild v1 (goSplit key t.separator) t.root).1).1 = Except.ok v2
    rw [congrArg Prod.fst hroot]
    exact retAux_insAux _ _ _ _ _ hok
  · show ({ t with root := (insAux t.isMWild t.multiWild v2 (goSplit key t.separator)
        (insAux t.isMWild t.multiWild v1 (goSplit key t.separator) t.root).1).1 } : Trie Val)
      = { t with root := (insAux t.isMWild t.multiWild v2 (goSplit key t.separator) t.root).1 }
    rw [congrArg Prod.fst hroot]

theorem claim_C8_witness :
    (((New Nat stdOpts).Insert "a/b" (some 1)).1.Insert "a/b" (some 2)).1.Retrieve "a/b"
      = Except.ok (some 2) ∧
    (((New Nat stdOpts).Insert "a/b" (some 1)).1.Insert "a/b" (some 2)).1
      = ((New Nat stdOpts).Insert "a/b" (some 2)).1 :=
  claim_C8_overwrite (New Nat stdOpts) "a/b" (some 1) (some 2) (by decide)

/-- Claim C9: pairs collected through a multi-level wildcard pattern
segment carry an extra trailing separator on their reconstructed key
(every key emitted by the subtree-collection loop extends a prefix that
ends in the separator), while the literal and single-wildcard branches
reconstruct the key with no trailing separator: the stored a/b/c/d is
reported as a/b/c/d/ by the pattern a/b/# but as a/b/c/d by the
patterns a/b/c/d and a/+/c/d. -/
theorem claim_C9_trailing_sep :
    (∀ (Val : Type) (sep : String) (f : Nat) (frames : List (Node Val × String))
       (acc out : List (KeyValue Val)),
      (∀ fr ∈ frames, (∃ q, fr.2 = q ++ sep) ∨ fr.1.value = none) →
      (∀ kv ∈ acc, ∃ q, kv.Key = q ++ sep) →
      collectLoop sep f frames acc = some out →
      ∀ kv ∈ out, ∃ q, kv.Key = q ++ sep) ∧
    trieC9.Match "a/b/#" 100 = MRes.done [KeyValue.mk "a/b/c/d/" (some 1)] ∧
    trieC9.Match "a/b/c/d" 100 = MRes.done [KeyValue.mk "a/b/c/d" (some 1)] ∧
    trieC9.Match "a/+/c/d" 100 = MRes.done [KeyValue.mk "a/b/c/d" (some 1)] :=
  ⟨fun Val sep f frames acc out => collectLoop_keys sep f frames acc out,
   by decide, by decide, by decide⟩

theorem claim_C9_witness : ∃ q : String, ("x/" : String) = q ++ "/" := by
  have hfr : ∀ fr ∈ [((Node.mk [] (some 5) : Node Nat), "x/")],
      (∃ q, fr.2 = q ++ "/") ∨ fr.1.value = none := by
    intro fr hfr
    rw [List.mem_singleton] at hfr
    subst hfr
    exact Or.inl ⟨"x", rfl⟩
  have hacc : ∀ kv ∈ ([] : List (KeyValue Nat)), ∃ q, kv.Key = q ++ "/" := by
    intro kv hkv; cases hkv
  have hrun : collectLoop "/" 10 [((Node.mk [] (some 5) : Node Nat), "x/")] []
      = some [KeyValue.mk "x/" (some 5)] := rfl
  exact claim_C9_trailing_sep.1 Nat "/" 10 _ _ _ hfr hacc hrun
    (KeyValue.mk "x/" (some 5)) (List.mem_singleton_self _)

/-- Claim C10: the literal dispatch emits a stored multi-wildcard child
without checking its value: after inserting a/# with a nil value, Match
"a/x" returns the pair (a/#, nil).  Every other collection site checks
the value: with the multi-level wildcard disabled every completed Match
emits only present values, and the subtree-collection loop emits only
present values. -/
theorem claim_C10_nil_emission :
    trieC10.Match "a/x" 100 = MRes.done [KeyValue.mk "a/#" none] ∧
    (∀ (Val : Type) (t : Trie Val) (parts : List String), t.isMWild = false →
      ∀ (f : Nat) (st : List (Frame Val)) (acc out : List (KeyValue Val)),
        (∀ kv ∈ acc, kv.Value.isSome = true) →
        matchLoop t parts f st acc = MRes.done out →
        ∀ kv ∈ out, kv.Value.isSome = true) ∧
    (∀ (Val : Type) (sep : String) (f : Nat) (frames : List (Node Val × String))
       (acc out : List (KeyValue Val)),
      (∀ kv ∈ acc, kv.Value.isSome = true) →
      collectLoop sep f frames acc = some out →
      ∀ kv ∈ out, kv.Value.isSome = true) :=
  ⟨by decide, fun Val t parts hmw => matchLoop_values_noMW t parts hmw,
   fun Val sep => collectLoop_values sep⟩

theorem claim_C10_witness :
    (KeyValue.mk "a/b" (some 1) : KeyValue Nat).Value.isSome = true := by
  refine claim_C10_nil_emission.2.1 Nat ((noMWTrie.Insert "a/b" (some 1)).1)
    (goSplit "a/+" "/") rfl 100
    [Frame.mk (noMWTrie.Insert "a/b" (some 1)).1.root 0 ""] []
    [KeyValue.mk "a/b" (some 1)]
    (fun kv hkv => absurd hkv (List.not_mem_nil kv)) (by decide)
    (KeyValue.mk "a/b" (some 1)) (List.mem_singleton_self _)

end TinyTrie
